import Mathlib

/-!
Verification of the MCTS search-tree data structure (`src/mcts/node.h`).

The development shallowly embeds the data model of the header: `Edge`,
`Node` (realized move node), `LowNode` (position node), the
`EdgeAndNode` proxy pair and the visited-children iterator.  Machine
integers (`uint32_t`, `uint16_t`) are modelled as `Nat`, with an explicit
`% 2 ^ 32` where the source relies on unsigned wraparound; the `double`
and `float` statistics are modelled as exact rationals.  Function bodies
that live in the implementation file (`node.cc`), which is not part of
the sources, are modelled from the specification and documented as such
on each definition.
-/

namespace LC0

/-- GameResult as used by the node bounds: BLACK_WON < DRAW < WHITE_WON. -/
inductive GameResult where
  | blackWon
  | draw
  | whiteWon
deriving DecidableEq

/-- Terminal type of a node (`enum class Terminal`). -/
inductive Terminal where
  | nonTerminal
  | endOfGame
  | tablebase
deriving DecidableEq

/-- A move, modelled by its 16-bit packed representation. -/
abbrev Move := Nat

/-- An `Edge`: a potential move plus a prior compressed to a 16-bit
minifloat code (field `p_` of class `Edge`). -/
structure Edge where
  move : Move
  p : Nat
deriving DecidableEq

/-- Modelled from the spec: `Edge::FromMovelist` (body in `node.cc`, not
under the sources) creates an array of edges from the list of moves with
zero policy priors. -/
def Edge.fromMovelist (moves : List Move) : List Edge :=
  moves.map (fun mv => { move := mv, p := 0 })

/-- A realized move node (class `Node`): statistics `wl_` (double),
`d_`, `m_` (float), completed visits `n_` (uint32), virtual loss
`n_in_flight_` (atomic uint32), the copied edge, the index among the
parent's edges, and terminal information. -/
structure Node where
  wl : ℚ
  d : ℚ
  m : ℚ
  n : ℕ
  n_in_flight : ℕ
  edge : Edge
  index : ℕ
  terminal_type : Terminal
  lower_bound : GameResult
  upper_bound : GameResult
deriving DecidableEq

/-- The `Node(const Edge& edge, uint16_t index)` constructor: copies the
edge, stores the index, and initializes statistics to zero with
non-terminal status and the widest bounds. -/
def mkNode (edge : Edge) (index : ℕ) : Node :=
  { wl := 0
    d := 0
    m := 0
    n := 0
    n_in_flight := 0
    edge := edge
    index := index
    terminal_type := Terminal.nonTerminal
    lower_bound := GameResult.blackWon
    upper_bound := GameResult.whiteWon }

/-- Modelled from the spec: the body of `Node::TryStartScoreUpdate` is in
`node.cc`, not under the sources.  Per its documentation in the header
(lines 238-242): if this node is not in the process of being expanded by
another thread (which can happen only if `n == 0` and `n_in_flight == 1`),
mark the node as being updated by incrementing `n_in_flight` and return
true; otherwise return false.  The atomic load-compare-CAS loop is
modelled by its sequential effect. -/
def tryStartScoreUpdate (nd : Node) : Bool × Node :=
  if nd.n = 0 ∧ nd.n_in_flight = 1 then (false, nd)
  else (true, { nd with n_in_flight := nd.n_in_flight + 1 })

/-- The statistics updated by a score update; shared shape of the `Node`
and `LowNode` statistics fields. -/
structure ScoreStats where
  wl : ℚ
  d : ℚ
  m : ℚ
  n : ℕ
  n_in_flight : ℕ
deriving DecidableEq

/-- Modelled from the spec: the bodies of `Node::FinalizeScoreUpdate` and
`LowNode::FinalizeScoreUpdate` are in `node.cc`, not under the sources.
Per the spec (section 4.2) and the header documentation, the update merges
a new value into the running means, `wl <- wl + k * (v - wl) / (n + k)`
(and likewise for `d` and `m`), then performs `n += k` and
`n_in_flight -= k` (`multivisit` is `k`). -/
def finalizeScoreUpdate (st : ScoreStats) (v dv mv : ℚ) (k : ℕ) : ScoreStats :=
  { wl := st.wl + (k : ℚ) * (v - st.wl) / ((st.n : ℚ) + (k : ℚ))
    d := st.d + (k : ℚ) * (dv - st.d) / ((st.n : ℚ) + (k : ℚ))
    m := st.m + (k : ℚ) * (mv - st.m) / ((st.n : ℚ) + (k : ℚ))
    n := st.n + k
    n_in_flight := st.n_in_flight - k }

/-- Parent accounting state of a `LowNode`: `num_parents_` (uint16, the
`AddParent` assertion rules out overflow, so `Nat` is faithful) and the
permanent `is_transposition` bit. -/
structure ParentCount where
  num_parents : ℕ
  is_transposition : Bool
deriving DecidableEq

/-- Embeds `LowNode::AddParent` (header lines 526-532): increments
`num_parents_`, then `is_transposition |= num_parents_ > 1` on the
incremented value. -/
def addParent (s : ParentCount) : ParentCount :=
  { num_parents := s.num_parents + 1
    is_transposition := s.is_transposition || decide (1 < s.num_parents + 1) }

/-- Embeds `LowNode::RemoveParent` (header lines 534-537): decrements
`num_parents_` (asserted positive); `is_transposition` is untouched. -/
def removeParent (s : ParentCount) : ParentCount :=
  { s with num_parents := s.num_parents - 1 }

/-- A parent accounting call. -/
inductive ParentOp where
  | add
  | remove

/-- Applies one parent accounting call. -/
def parentStep (s : ParentCount) : ParentOp → ParentCount
  | ParentOp.add => addParent s
  | ParentOp.remove => removeParent s

/-- Aggregate visit state of a position: its own completed visit count
`n_` and the completed visit counts of its realized children. -/
structure PAgg where
  n : ℕ
  childN : List ℕ
deriving DecidableEq

/-- Modelled from the spec: one tree operation affecting a position's
aggregate visit counts.  `realize` realizes a new child (`InsertChildAt`,
visits start at 0); `descend i k` is a finalized `k`-visit descent
through child `i`: per the spec's control flow, `FinalizeScoreUpdate`
performs `n += multivisit` on the child and on the position, with the
same `multivisit`.  `CancelScoreUpdate` touches only `n_in_flight`, so it
is irrelevant to `n` and omitted. -/
inductive PosOp where
  | realize
  | descend (i k : ℕ)

/-- Applies one aggregate-visit operation; an out-of-range child index is
a no-op (`descend` reaches only realized children). -/
def posStep (s : PAgg) : PosOp → PAgg
  | PosOp.realize => { s with childN := s.childN ++ [0] }
  | PosOp.descend i k =>
    if i < s.childN.length then
      { n := s.n + k, childN := s.childN.set i (s.childN.getD i 0 + k) }
    else s

/-- Modelled from the spec: the aggregate state of a position right after
the visit that first created it was finalized (`n = 1`, no realized
children yet). -/
def createdPos : PAgg := { n := 1, childN := [] }

/-- A position node (class `LowNode`) as needed for child storage and
the `SortEdges` contract: the edge array (`none` models a null
`edges_`), the logical index-parallel array of realized children
(inline-plus-spill storage modelled as one array, matching the header's
"logical array" description), and the completed visit count `n_`. -/
structure LowNodeC where
  edgesOpt : Option (List Edge)
  children : List (Option Node)
  n : ℕ
deriving DecidableEq

/-- The `LowNode(const MoveList& moves)` constructor (header lines
422-429): edges from the move list, no realized children, `n_ = 0`. -/
def lowNodeOfMoves (moves : List Move) : LowNodeC :=
  { edgesOpt := some (Edge.fromMovelist moves)
    children := List.replicate moves.length none
    n := 0 }

/-- The `LowNode(const MoveList& moves, uint16_t index)` constructor
(header lines 432-440): edges from the move list, plus the eagerly
realized child `Node(edges_[index], index)`; `n_ = 0`. -/
def lowNodeOfMovesIdx (moves : List Move) (index : ℕ) : LowNodeC :=
  let edges := Edge.fromMovelist moves
  { edgesOpt := some edges
    children := (List.replicate moves.length none).set index
      (some (mkNode (edges.getD index { move := 0, p := 0 }) index))
    n := 0 }

/-- Modelled from the spec: `LowNode::GetChildAt` (body in `node.cc`, not
under the sources) returns the realized child at the given edge index, or
null; out-of-range indices yield null (the iterators rely on this). -/
def getChildAt (p : LowNodeC) (i : ℕ) : Option Node :=
  p.children.getD i none

/-- The node `Node(edges_[i], i)` that `LowNode::InsertChildAt`
constructs when realizing the child at edge index `i`. -/
def insertedChild (p : LowNodeC) (i : ℕ) : Node :=
  mkNode ((p.edgesOpt.getD []).getD i { move := 0, p := 0 }) i

/-- Modelled from the spec: `LowNode::InsertChildAt` (body in `node.cc`,
not under the sources) idempotently realizes the child at index `i`: if
the slot already holds a realized node it is returned unchanged,
otherwise a new `Node(edges_[i], i)` is constructed in the slot and
published; concurrent racers are serialized by the CAS on `index_` and
all return the same node, modelled by the sequential effect. -/
def insertChildAt (p : LowNodeC) (i : ℕ) : Node × LowNodeC :=
  match p.children.getD i none with
  | some nd => (nd, p)
  | none =>
    (insertedChild p i, { p with children := p.children.set i (some (insertedChild p i)) })

/-- The assertion guard of `LowNode::SortEdges` (header lines 518-523):
the body runs `assert(edges_); assert(n_ == 0);`, so the asserts pass
exactly when the edge array exists and no visit has been finalized. -/
def sortEdgesAssertOK (p : LowNodeC) : Bool :=
  p.edgesOpt.isSome && (p.n == 0)

/-- Whether at least one child of the position is realized. -/
def hasRealizedChild (p : LowNodeC) : Bool :=
  p.children.any (fun c => c.isSome)

/-- Embeds `LowNode::GetChildrenVisits` (header lines 466-467): `return n_ - 1;`
on a `uint32_t`, i.e. subtraction modulo `2 ^ 32`. -/
def LowNodeC.getChildrenVisits (p : LowNodeC) : ℕ :=
  (p.n + (2 ^ 32 - 1)) % 2 ^ 32

/-- The `EdgeAndNode` pair (header lines 638-702): an edge pointer that
may be null (a null pair) and a node pointer that is null while the edge
has no realized node. -/
structure EdgeAndNode where
  edge : Option Edge
  node : Option Node
deriving DecidableEq

/-- Embeds `EdgeAndNode::GetQ` (header line 655): the node's
`GetQ(draw_score) = wl_ + draw_score * d_` if the node exists with
`GetN() > 0`, else `default_q`. -/
def EdgeAndNode.getQ (e : EdgeAndNode) (default_q draw_score : ℚ) : ℚ :=
  match e.node with
  | some nd => if 0 < nd.n then nd.wl + draw_score * nd.d else default_q
  | none => default_q

/-- Embeds `EdgeAndNode::GetWL` (header line 658): the node's `wl_` if the node
exists with `GetN() > 0`, else `default_wl`. -/
def EdgeAndNode.getWL (e : EdgeAndNode) (default_wl : ℚ) : ℚ :=
  match e.node with
  | some nd => if 0 < nd.n then nd.wl else default_wl
  | none => default_wl

/-- Embeds `EdgeAndNode::GetD` (header line 661): the node's `d_` if the node
exists with `GetN() > 0`, else `default_d`. -/
def EdgeAndNode.getD (e : EdgeAndNode) (default_d : ℚ) : ℚ :=
  match e.node with
  | some nd => if 0 < nd.n then nd.d else default_d
  | none => default_d

/-- Embeds `EdgeAndNode::GetM` (header line 664): the node's `m_` if the node
exists with `GetN() > 0`, else `default_m`. -/
def EdgeAndNode.getM (e : EdgeAndNode) (default_m : ℚ) : ℚ :=
  match e.node with
  | some nd => if 0 < nd.n then nd.m else default_m
  | none => default_m

/-- Embeds `EdgeAndNode::GetN` (header line 668): the node's `n_`, or 0 with no
node. -/
def EdgeAndNode.getN (e : EdgeAndNode) : ℕ :=
  match e.node with
  | some nd => nd.n
  | none => 0

/-- Embeds `EdgeAndNode::GetNStarted` (header line 669): the node's
`GetNStarted() = n_ + n_in_flight_` (header lines 212-214), or 0 with no
node. -/
def EdgeAndNode.getNStarted (e : EdgeAndNode) : ℕ :=
  match e.node with
  | some nd => nd.n + nd.n_in_flight
  | none => 0

/-- Embeds `EdgeAndNode::GetNInFlight` (header line 670): the node's
`n_in_flight_`, or 0 with no node. -/
def EdgeAndNode.getNInFlight (e : EdgeAndNode) : ℕ :=
  match e.node with
  | some nd => nd.n_in_flight
  | none => 0

/-- Embeds `EdgeAndNode::GetBounds` (header lines 675-678): the node's bounds,
or the widest interval `(BLACK_WON, WHITE_WON)` with no node. -/
def EdgeAndNode.getBounds (e : EdgeAndNode) : GameResult × GameResult :=
  match e.node with
  | some nd => (nd.lower_bound, nd.upper_bound)
  | none => (GameResult.blackWon, GameResult.whiteWon)

/-- A slot at which the visited-children scan terminates: an unrealized
slot (`GetChildAt` returned null, ending the do-while), or a realized
child with `n == 0` and `n_in_flight == 0` (the explicit break in
`operator++`). -/
def stopSlot : Option Node → Bool
  | none => true
  | some nd => (nd.n == 0) && (nd.n_in_flight == 0)

/-- The `VisitedNode_Iterator::operator++` do-while loop (header lines
812-828), modelled as the list of nodes the iteration will still yield
when the scan continues over the given slot sequence (`GetChildAt` per
slot is modelled from its documented contract, realized child or null):
a null slot exits the loop into `end()`; a realized child with
`n == 0 ∧ n_in_flight == 0` breaks to `end()`; a realized child with
`n == 0` but visits in flight is skipped; a realized child with `n > 0`
is yielded, the next increment resuming after it. -/
def visitLoop : List (Option Node) → List Node
  | [] => []
  | none :: _ => []
  | some nd :: rest =>
    if nd.n = 0 then
      if nd.n_in_flight = 0 then [] else visitLoop rest
    else nd :: visitLoop rest

/-- The full iteration from the `begin` constructor
(header lines 789-797): slot 0 is fetched; a null slot 0 makes the
iterator equal `end()`; a realized child with `n == 0` triggers
`operator++` from slot 1 (the constructor checks only `GetN() == 0`);
otherwise slot 0 is yielded first. -/
def visitedNodes : List (Option Node) → List Node
  | [] => []
  | none :: _ => []
  | some nd :: rest => if nd.n = 0 then visitLoop rest else nd :: visitLoop rest

/-- The sorted-policy invariant the iterator exploits (spec section 4.4):
with edges sorted by descending prior, every slot after a stopping slot
(a hole, or a realized child with no started visits) holds only realized
children that have `n == 0`. -/
def sortedPolicyInv (slots : List (Option Node)) : Prop :=
  slots.Pairwise (fun a b => stopSlot a = true → ∀ nd : Node, b = some nd → nd.n = 0)

/-- Modelled from the spec: the value denoted by a 16-bit minifloat code
word `w` with 5-bit exponent `w / 2048` and 11-bit significand
`w % 2048` (spec sections 3 and 4.1; the bodies of `Edge::SetP` and
`Edge::GetP` are in `node.cc`, not under the sources), scaled to an
integer: code 0 denotes zero, any other code denotes
`(2048 + significand) * 2 ^ exponent` in units of `2 ^ -42`. -/
def minifloatVal (w : ℕ) : ℕ :=
  if w = 0 then 0 else (2048 + w % 2048) * 2 ^ (w / 2048)

/-- Modelled from the spec: `Edge::GetP`, the prior denoted by the
stored 16-bit code word. -/
def decodeP (w : ℕ) : ℚ :=
  (minifloatVal w : ℚ) / 2 ^ 42

/-- Modelled from the spec: `Edge::SetP`, the lossy encode of a prior to
the 16-bit code: the largest code whose value does not exceed the input
(the spec requires an exact round trip on the representable set and
monotonicity otherwise). -/
def encodeP (x : ℚ) : ℕ :=
  Nat.findGreatest (fun w => decodeP w ≤ x) 65535

end LC0

namespace LC0

/-- Helper: both parent accounting calls preserve a set
`is_transposition` bit. -/
theorem parentStep_latch_mono (ops : List ParentOp) :
    ∀ s : ParentCount, s.is_transposition = true →
      (List.foldl parentStep s ops).is_transposition = true := by
  induction ops with
  | nil => intro s h; exact h
  | cons op rest ih =>
    intro s h
    cases op with
    | add =>
      exact ih (addParent s) (by simp [addParent, h])
    | remove =>
      exact ih (removeParent s) h

/-- C1: `try_start_score_update` returns true and increments `n_in_flight`
by exactly 1 iff the node is not in the forbidden state
`n == 0 ∧ n_in_flight == 1`; when it returns false, `n_in_flight` is left
unchanged.  In particular two successive calls on a fresh node
(`n = 0`, `n_in_flight = 0`) yield true then false. -/
theorem tryStartScoreUpdate_spec (nd : Node) :
    ((tryStartScoreUpdate nd).1 = true ↔ ¬(nd.n = 0 ∧ nd.n_in_flight = 1)) ∧
    ((tryStartScoreUpdate nd).1 = true →
      (tryStartScoreUpdate nd).2.n_in_flight = nd.n_in_flight + 1) ∧
    ((tryStartScoreUpdate nd).1 = false →
      (tryStartScoreUpdate nd).2.n_in_flight = nd.n_in_flight) ∧
    (nd.n = 0 → nd.n_in_flight = 0 →
      (tryStartScoreUpdate nd).1 = true ∧
      (tryStartScoreUpdate (tryStartScoreUpdate nd).2).1 = false) := by
  unfold tryStartScoreUpdate
  by_cases h : nd.n = 0 ∧ nd.n_in_flight = 1
  · simp [h]
  · simp only [if_neg h]
    refine ⟨by simp [h], by simp, by simp, ?_⟩
    intro hn hf
    simp [hn, hf]

/-- Witness for C1 at a concrete fresh node. -/
theorem tryStartScoreUpdate_spec_witness :
    ((tryStartScoreUpdate (mkNode ⟨0, 0⟩ 0)).1 = true ↔
      ¬((mkNode ⟨0, 0⟩ 0).n = 0 ∧ (mkNode ⟨0, 0⟩ 0).n_in_flight = 1)) ∧
    ((tryStartScoreUpdate (mkNode ⟨0, 0⟩ 0)).1 = true ∧
      (tryStartScoreUpdate (tryStartScoreUpdate (mkNode ⟨0, 0⟩ 0)).2).1 = false) :=
  ⟨(tryStartScoreUpdate_spec (mkNode ⟨0, 0⟩ 0)).1,
   ((tryStartScoreUpdate_spec (mkNode ⟨0, 0⟩ 0)).2.2.2 rfl rfl)⟩

/-- C2: `finalize_score_update(v, d, m, k)` with `k >= 1` produces
`wl' = wl + k * (v - wl) / (n + k)` (and analogously for `d` and `m`),
`n' = n + k` and `n_in_flight' = n_in_flight - k`.  In particular, on a
fresh position whose creating visit was finalized with `v = 0.2`,
realizing a child and finalizing one more visit with `v = 0.2, d = 0,
m = 10, k = 1` leaves `p.n = 2` and `p.wl = 0.2` exactly (hence within
`1e-6`), and the child's own finalize gives `n = 1`, `wl = 0.2`. -/
theorem finalizeScoreUpdate_spec (st : ScoreStats) (v dv mv : ℚ) (k : ℕ)
    (hk : 1 ≤ k) (hnif : k ≤ st.n_in_flight) :
    (finalizeScoreUpdate st v dv mv k).wl
        = st.wl + (k : ℚ) * (v - st.wl) / ((st.n : ℚ) + (k : ℚ)) ∧
    (finalizeScoreUpdate st v dv mv k).d
        = st.d + (k : ℚ) * (dv - st.d) / ((st.n : ℚ) + (k : ℚ)) ∧
    (finalizeScoreUpdate st v dv mv k).m
        = st.m + (k : ℚ) * (mv - st.m) / ((st.n : ℚ) + (k : ℚ)) ∧
    (finalizeScoreUpdate st v dv mv k).n = st.n + k ∧
    (finalizeScoreUpdate st v dv mv k).n_in_flight + k = st.n_in_flight ∧
    ((finalizeScoreUpdate
        { (finalizeScoreUpdate ⟨0, 0, 0, 0, 1⟩ (1/5) 0 10 1) with n_in_flight := 1 }
        (1/5) 0 10 1).n = 2 ∧
     (finalizeScoreUpdate
        { (finalizeScoreUpdate ⟨0, 0, 0, 0, 1⟩ (1/5) 0 10 1) with n_in_flight := 1 }
        (1/5) 0 10 1).wl = 1/5 ∧
     (finalizeScoreUpdate ⟨0, 0, 0, 0, 1⟩ (1/5) 0 10 1).n = 1 ∧
     (finalizeScoreUpdate ⟨0, 0, 0, 0, 1⟩ (1/5) 0 10 1).wl = 1/5) := by
  refine ⟨rfl, rfl, rfl, rfl, ?_, ?_, ?_, rfl, ?_⟩
  · show st.n_in_flight - k + k = st.n_in_flight
    omega
  · rfl
  · norm_num [finalizeScoreUpdate]
  · norm_num [finalizeScoreUpdate]

/-- Witness for C2 at concrete statistics. -/
theorem finalizeScoreUpdate_spec_witness :
    (1 ≤ 1 ∧ 1 ≤ (⟨0, 0, 0, 0, 1⟩ : ScoreStats).n_in_flight) ∧
    (finalizeScoreUpdate ⟨0, 0, 0, 0, 1⟩ (1/5) 0 10 1).n = 0 + 1 :=
  ⟨⟨le_refl 1, le_refl 1⟩,
   (finalizeScoreUpdate_spec ⟨0, 0, 0, 0, 1⟩ (1/5) 0 10 1 (le_refl 1)
     (le_refl 1)).2.2.2.1⟩

/-- C5: once `AddParent` is called on a position that already has at
least one parent (so `num_parents` reaches 2), `is_transposition` is true
and remains true for the rest of the node's life under every subsequent
sequence of `AddParent` and `RemoveParent` calls. -/
theorem addParent_transposition_latch (s : ParentCount) (ops : List ParentOp)
    (h : 1 ≤ s.num_parents) :
    (addParent s).is_transposition = true ∧
    (List.foldl parentStep (addParent s) ops).is_transposition = true := by
  have hset : (addParent s).is_transposition = true := by
    simp [addParent]
    exact Or.inr h
  exact ⟨hset, parentStep_latch_mono ops (addParent s) hset⟩

/-- Witness for C5: a node with one parent gains a second, both are then
removed and one re-added; the latch survives. -/
theorem addParent_transposition_latch_witness :
    1 ≤ (⟨1, false⟩ : ParentCount).num_parents ∧
    (List.foldl parentStep (addParent ⟨1, false⟩)
      [ParentOp.remove, ParentOp.remove, ParentOp.add]).is_transposition = true :=
  ⟨le_refl 1,
   (addParent_transposition_latch ⟨1, false⟩
     [ParentOp.remove, ParentOp.remove, ParentOp.add] (le_refl 1)).2⟩

/-- Helper: bumping one in-range entry of a list bumps its sum by the
same amount. -/
theorem sum_set_getD_add (l : List ℕ) :
    ∀ i k : ℕ, i < l.length →
      (l.set i (l.getD i 0 + k)).sum = l.sum + k := by
  induction l with
  | nil => intro i k h; simp at h
  | cons a t ih =>
    intro i k h
    cases i with
    | zero => simp [List.sum_cons]; omega
    | succ j =>
      have hj : j < t.length := by simpa using h
      simp only [List.set_cons_succ, List.getD_cons_succ, List.sum_cons, ih j k hj]
      omega

/-- Helper: `posStep` preserves the aggregate-consistency invariant. -/
theorem posStep_invariant (ops : List PosOp) :
    ∀ s : PAgg, s.n = 1 + s.childN.sum →
      (List.foldl posStep s ops).n = 1 + (List.foldl posStep s ops).childN.sum := by
  induction ops with
  | nil => intro s h; exact h
  | cons op rest ih =>
    intro s h
    cases op with
    | realize =>
      refine ih _ ?_
      simp [posStep, h]
    | descend i k =>
      refine ih _ ?_
      by_cases hi : i < s.childN.length
      · simp only [posStep, if_pos hi]
        rw [sum_set_getD_add s.childN i k hi]
        omega
      · simpa [posStep, hi] using h

/-- C3: after any sequence of finalized operations starting from a freshly
created position, the position's `n` equals 1 plus the sum of `n` over
its realized children, and equivalently `GetChildrenVisits() = n - 1`
equals the sum of the children's visit counts. -/
theorem position_aggregate_consistency (ops : List PosOp) :
    (List.foldl posStep createdPos ops).n
        = 1 + (List.foldl posStep createdPos ops).childN.sum ∧
    (List.foldl posStep createdPos ops).n - 1
        = (List.foldl posStep createdPos ops).childN.sum := by
  have h := posStep_invariant ops createdPos (by simp [createdPos])
  exact ⟨h, by omega⟩

/-- C7 counterexample: the `LowNode(moves, index)` constructor yields a
state with a realized child in which the `SortEdges` assertions pass
(`edges_` non-null, `n_ == 0`), so the assertion does not fail in every
state with a realized child. -/
theorem sortEdges_assert_counterexample :
    hasRealizedChild (lowNodeOfMovesIdx [1, 2, 3] 0) = true ∧
    sortEdgesAssertOK (lowNodeOfMovesIdx [1, 2, 3] 0) = true ∧
    ¬(∀ p : LowNodeC, hasRealizedChild p = true → sortEdgesAssertOK p = false) := by
  refine ⟨rfl, rfl, ?_⟩
  intro hall
  have := hall (lowNodeOfMovesIdx [1, 2, 3] 0) rfl
  simp [lowNodeOfMovesIdx, sortEdgesAssertOK] at this

/-- C7 amended: the `SortEdges` debug assertions fail exactly when the
edge array is absent or some visit has been finalized (`n_ > 0`); child
realization alone does not trip them — in particular both `LowNode`
constructors, including the one that eagerly realizes a child, leave a
state in which sorting passes the assertions. -/
theorem sortEdges_assert_amended :
    (∀ p : LowNodeC, sortEdgesAssertOK p = false ↔ (p.edgesOpt = none ∨ p.n ≠ 0)) ∧
    (∀ moves index, sortEdgesAssertOK (lowNodeOfMovesIdx moves index) = true) ∧
    (∀ moves, sortEdgesAssertOK (lowNodeOfMoves moves) = true) := by
  refine ⟨?_, ?_, ?_⟩
  · intro p
    cases hp : p.edgesOpt <;> simp [sortEdgesAssertOK, hp]
  · intro moves index
    simp [sortEdgesAssertOK, lowNodeOfMovesIdx]
  · intro moves
    simp [sortEdgesAssertOK, lowNodeOfMoves]

/-- Witness for the amended C7 at a concrete constructor state. -/
theorem sortEdges_assert_amended_witness :
    sortEdgesAssertOK (lowNodeOfMovesIdx [1, 2] 1) = true :=
  sortEdges_assert_amended.2.1 [1, 2] 1

/-- C10: on a position with `n == 0` (e.g. freshly constructed),
`GetChildrenVisits` computes `n - 1` in unsigned 32-bit arithmetic and
returns `2 ^ 32 - 1` rather than 0. -/
theorem getChildrenVisits_wraparound :
    (lowNodeOfMoves [1, 2, 3]).getChildrenVisits = 2 ^ 32 - 1 ∧
    (lowNodeOfMoves [1, 2, 3]).getChildrenVisits ≠ 0 ∧
    (∀ moves : List Move, (lowNodeOfMoves moves).getChildrenVisits = 2 ^ 32 - 1) ∧
    (∀ p : LowNodeC, p.n = 0 → p.getChildrenVisits = 2 ^ 32 - 1) := by
  have hgen : ∀ p : LowNodeC, p.n = 0 → p.getChildrenVisits = 2 ^ 32 - 1 := by
    intro p hp
    simp only [LowNodeC.getChildrenVisits, hp, Nat.zero_add]
    exact Nat.mod_eq_of_lt (by norm_num)
  refine ⟨hgen _ rfl, ?_, fun moves => hgen _ rfl, hgen⟩
  rw [hgen _ rfl]
  norm_num

end LC0

namespace LC0

/-- Witness for C10 at a concrete fresh position. -/
theorem getChildrenVisits_wraparound_witness :
    (lowNodeOfMoves [7]).n = 0 ∧
    (lowNodeOfMoves [7]).getChildrenVisits = 2 ^ 32 - 1 :=
  ⟨rfl, getChildrenVisits_wraparound.2.2.2 (lowNodeOfMoves [7]) rfl⟩

/-- C4: for a valid edge index `i`, `insert_child_at(i)` is idempotent
(a repeated call returns the same node and leaves the position
unchanged), the realized node's index is `i` and its edge a copy of the
parent's edge at `i`, and `get_child_at(i)` is null on a fresh position
and returns the inserted node afterwards. -/
theorem insertChildAt_idempotent (p : LowNodeC) (i : ℕ)
    (hi : i < p.children.length) :
    insertChildAt (insertChildAt p i).2 i = insertChildAt p i ∧
    (getChildAt p i = none →
      (insertChildAt p i).1.index = i ∧
      (insertChildAt p i).1.edge = (p.edgesOpt.getD []).getD i { move := 0, p := 0 } ∧
      getChildAt (insertChildAt p i).2 i = some (insertChildAt p i).1) ∧
    (∀ moves : List Move, ∀ j : ℕ, getChildAt (lowNodeOfMoves moves) j = none) := by
  have hrep : ∀ moves : List Move, ∀ j : ℕ,
      getChildAt (lowNodeOfMoves moves) j = none := by
    intro moves j
    show (List.replicate moves.length (none : Option Node)).getD j none = none
    rw [List.getD_eq_getElem?_getD, List.getElem?_replicate]
    split <;> rfl
  have heq_some : ∀ nd : Node, p.children.getD i none = some nd →
      insertChildAt p i = (nd, p) := by
    intro nd h
    unfold insertChildAt
    rw [h]
  have heq_none : p.children.getD i none = none →
      insertChildAt p i
        = (insertedChild p i,
           { p with children := p.children.set i (some (insertedChild p i)) }) := by
    intro h
    unfold insertChildAt
    rw [h]
  cases hcase : p.children.getD i none with
  | some nd =>
    rw [heq_some nd hcase]
    refine ⟨heq_some nd hcase, ?_, hrep⟩
    intro hnone
    rw [getChildAt, hcase] at hnone
    exact absurd hnone (by simp)
  | none =>
    rw [heq_none hcase]
    have hset : (p.children.set i (some (insertedChild p i))).getD i none
        = some (insertedChild p i) := by
      rw [List.getD_eq_getElem?_getD, List.getElem?_set_eq_of_lt _ hi]
      rfl
    have hsecond :
        insertChildAt { p with children := p.children.set i (some (insertedChild p i)) } i
          = (insertedChild p i,
             { p with children := p.children.set i (some (insertedChild p i)) }) := by
      unfold insertChildAt
      rw [show ({ p with children := p.children.set i (some (insertedChild p i)) }
            : LowNodeC).children = p.children.set i (some (insertedChild p i)) from rfl]
      rw [hset]
    refine ⟨hsecond, ?_, hrep⟩
    intro _
    refine ⟨rfl, rfl, ?_⟩
    show (p.children.set i (some (insertedChild p i))).getD i none
        = some (insertedChild p i)
    exact hset

/-- Witness for C4 at a concrete fresh position. -/
theorem insertChildAt_idempotent_witness :
    0 < (lowNodeOfMoves [5, 6]).children.length ∧
    insertChildAt (insertChildAt (lowNodeOfMoves [5, 6]) 0).2 0
      = insertChildAt (lowNodeOfMoves [5, 6]) 0 :=
  ⟨by decide, (insertChildAt_idempotent (lowNodeOfMoves [5, 6]) 0 (by decide)).1⟩

/-- C9: the `EdgeAndNode` value proxies `GetQ`, `GetWL`, `GetD`, `GetM`
return the caller-supplied default both when no node exists and when a
node exists with `n == 0`; with no node, `GetN`, `GetNStarted` and
`GetNInFlight` return 0 and `GetBounds` returns the widest interval
`(BLACK_WON, WHITE_WON)`. -/
theorem edgeAndNode_proxy_spec (eo : Option Edge) (nd : Node)
    (dq ds dwl dd dm : ℚ) (h : nd.n = 0) :
    (EdgeAndNode.mk eo (some nd)).getQ dq ds = dq ∧
    (EdgeAndNode.mk eo (some nd)).getWL dwl = dwl ∧
    (EdgeAndNode.mk eo (some nd)).getD dd = dd ∧
    (EdgeAndNode.mk eo (some nd)).getM dm = dm ∧
    (EdgeAndNode.mk eo none).getQ dq ds = dq ∧
    (EdgeAndNode.mk eo none).getWL dwl = dwl ∧
    (EdgeAndNode.mk eo none).getD dd = dd ∧
    (EdgeAndNode.mk eo none).getM dm = dm ∧
    (EdgeAndNode.mk eo none).getN = 0 ∧
    (EdgeAndNode.mk eo none).getNStarted = 0 ∧
    (EdgeAndNode.mk eo none).getNInFlight = 0 ∧
    (EdgeAndNode.mk eo none).getBounds = (GameResult.blackWon, GameResult.whiteWon) := by
  refine ⟨?_, ?_, ?_, ?_, rfl, rfl, rfl, rfl, rfl, rfl, rfl, rfl⟩ <;>
    simp [EdgeAndNode.getQ, EdgeAndNode.getWL, EdgeAndNode.getD, EdgeAndNode.getM, h]

/-- Witness for C9 at a concrete unvisited node. -/
theorem edgeAndNode_proxy_spec_witness :
    (mkNode ⟨3, 0⟩ 1).n = 0 ∧
    (EdgeAndNode.mk none (some (mkNode ⟨3, 0⟩ 1))).getQ 7 0 = 7 :=
  ⟨rfl, (edgeAndNode_proxy_spec none (mkNode ⟨3, 0⟩ 1) 7 0 0 0 0 rfl).1⟩

end LC0

namespace LC0

/-- Helper: a slot sequence whose realized entries all have `n == 0`
yields nothing. -/
theorem visitLoop_nil_of_all_zero :
    ∀ xs : List (Option Node), (∀ nd : Node, some nd ∈ xs → nd.n = 0) →
      visitLoop xs = [] := by
  intro xs
  induction xs with
  | nil => intro _; rfl
  | cons x t ih =>
    intro h
    cases x with
    | none => rfl
    | some nd =>
      have hn : nd.n = 0 := h nd (List.mem_cons_self _ _)
      have ht : ∀ nd : Node, some nd ∈ t → nd.n = 0 :=
        fun nd hm => h nd (List.mem_cons_of_mem _ hm)
      by_cases hf : nd.n_in_flight = 0 <;> simp [visitLoop, hn, hf, ih ht]

/-- Helper: filtering `n > 0` out of realized entries that all have
`n == 0` gives the empty list. -/
theorem filter_pos_nil_of_all_zero (xs : List (Option Node))
    (h : ∀ nd : Node, some nd ∈ xs → nd.n = 0) :
    (xs.filterMap id).filter (fun nd => decide (0 < nd.n)) = [] := by
  rw [List.filter_eq_nil_iff]
  intro a ha
  rw [List.mem_filterMap] at ha
  obtain ⟨o, ho, hoa⟩ := ha
  have hz : a.n = 0 := h a (by rw [show o = some a from hoa] at ho; exact ho)
  simp [hz]

/-- Helper: under the sorted-policy invariant the `operator++` scan
yields exactly the realized children with `n > 0`. -/
theorem visitLoop_eq_filter :
    ∀ xs : List (Option Node),
      xs.Pairwise (fun a b => stopSlot a = true → ∀ nd : Node, b = some nd → nd.n = 0) →
      visitLoop xs = (xs.filterMap id).filter (fun nd => decide (0 < nd.n)) := by
  intro xs
  induction xs with
  | nil => intro _; rfl
  | cons x t ih =>
    intro hp
    rw [List.pairwise_cons] at hp
    obtain ⟨hR, ht⟩ := hp
    cases x with
    | none =>
      have hz : ∀ nd : Node, some nd ∈ t → nd.n = 0 :=
        fun nd hm => hR (some nd) hm rfl nd rfl
      show ([] : List Node) = ((none :: t).filterMap id).filter (fun nd => decide (0 < nd.n))
      rw [show ((none :: t).filterMap (id : Option Node → Option Node)) = t.filterMap id
        from rfl]
      exact (filter_pos_nil_of_all_zero t hz).symm
    | some nd =>
      have hcons : ((some nd :: t).filterMap (id : Option Node → Option Node))
          = nd :: t.filterMap id := rfl
      by_cases hn : nd.n = 0
      · by_cases hf : nd.n_in_flight = 0
        · have hz : ∀ nd : Node, some nd ∈ t → nd.n = 0 :=
            fun b hb => hR (some b) hb (by simp [stopSlot, hn, hf]) b rfl
          simp [visitLoop, hn, hf, hcons, hz, filter_pos_nil_of_all_zero t hz]
        · simp [visitLoop, hn, hf, hcons, ih ht]
      · simp only [visitLoop, if_neg hn, hcons, ih ht, List.filter_cons]
        simp [Nat.pos_of_ne_zero hn]

/-- C6: under the sorted-policy invariant, the visited-children iterator
yields exactly the realized children with `n > 0`, and whenever the
`operator++` scan encounters a realized child with
`n == 0 ∧ n_in_flight == 0` it terminates at once, yielding none of the
following children. -/
theorem visitedNodes_sorted_policy (slots : List (Option Node))
    (h : sortedPolicyInv slots) :
    visitedNodes slots = (slots.filterMap id).filter (fun nd => decide (0 < nd.n)) ∧
    (∀ (nd : Node) (rest : List (Option Node)), nd.n = 0 → nd.n_in_flight = 0 →
      visitLoop (some nd :: rest) = []) := by
  constructor
  · unfold sortedPolicyInv at h
    cases slots with
    | nil => rfl
    | cons x t =>
      rw [List.pairwise_cons] at h
      obtain ⟨hR, ht⟩ := h
      cases x with
      | none =>
        have hz : ∀ nd : Node, some nd ∈ t → nd.n = 0 :=
          fun nd hm => hR (some nd) hm rfl nd rfl
        show ([] : List Node) = ((none :: t).filterMap id).filter (fun nd => decide (0 < nd.n))
        rw [show ((none :: t).filterMap (id : Option Node → Option Node)) = t.filterMap id
          from rfl]
        exact (filter_pos_nil_of_all_zero t hz).symm
      | some nd =>
        have hcons : ((some nd :: t).filterMap (id : Option Node → Option Node))
            = nd :: t.filterMap id := rfl
        by_cases hn : nd.n = 0
        · simp [visitedNodes, hn, hcons, visitLoop_eq_filter t ht]
        · simp only [visitedNodes, if_neg hn, hcons, visitLoop_eq_filter t ht,
            List.filter_cons]
          simp [Nat.pos_of_ne_zero hn]
  · intro nd rest hn hf
    simp [visitLoop, hn, hf]

/-- Witness for C6 on a concrete one-slot position. -/
theorem visitedNodes_sorted_policy_witness :
    sortedPolicyInv [some { mkNode ⟨0, 0⟩ 0 with n := 1 }] ∧
    visitedNodes [some { mkNode ⟨0, 0⟩ 0 with n := 1 }]
      = ([some { mkNode ⟨0, 0⟩ 0 with n := 1 }].filterMap id).filter
          (fun nd => decide (0 < nd.n)) :=
  ⟨by simp [sortedPolicyInv],
   (visitedNodes_sorted_policy [some { mkNode ⟨0, 0⟩ 0 with n := 1 }]
     (by simp [sortedPolicyInv])).1⟩

/-- Helper: the scaled minifloat value is strictly monotone in the code
word. -/
theorem minifloatVal_strictMono (w1 w2 : ℕ) (h : w1 < w2) :
    minifloatVal w1 < minifloatVal w2 := by
  unfold minifloatVal
  by_cases h1 : w1 = 0
  · subst h1
    rw [if_pos rfl, if_neg (by omega)]
    exact Nat.mul_pos (by omega) (pow_pos (by norm_num) _)
  · rw [if_neg h1, if_neg (by omega)]
    have he : w1 / 2048 ≤ w2 / 2048 := Nat.div_le_div_right (le_of_lt h)
    rcases Nat.lt_or_ge (w1 / 2048) (w2 / 2048) with hlt | hge
    · have hm1 : w1 % 2048 < 2048 := Nat.mod_lt _ (by norm_num)
      calc (2048 + w1 % 2048) * 2 ^ (w1 / 2048)
          < 4096 * 2 ^ (w1 / 2048) :=
            mul_lt_mul_of_pos_right (by omega) (pow_pos (by norm_num) _)
        _ = 2048 * 2 ^ (w1 / 2048 + 1) := by rw [pow_succ]; ring
        _ ≤ 2048 * 2 ^ (w2 / 2048) :=
            Nat.mul_le_mul (le_refl 2048) (Nat.pow_le_pow_right (by norm_num) (by omega))
        _ ≤ (2048 + w2 % 2048) * 2 ^ (w2 / 2048) :=
            Nat.mul_le_mul (by omega) (le_refl _)
    · have heq : w1 / 2048 = w2 / 2048 := le_antisymm he hge
      have hw1 := Nat.div_add_mod w1 2048
      have hw2 := Nat.div_add_mod w2 2048
      have hm : w1 % 2048 < w2 % 2048 := by omega
      rw [heq]
      exact mul_lt_mul_of_pos_right (by omega) (pow_pos (by norm_num) _)

/-- Helper: the decoded prior is strictly monotone in the code word. -/
theorem decodeP_strictMono (w1 w2 : ℕ) (h : w1 < w2) :
    decodeP w1 < decodeP w2 := by
  unfold decodeP
  have hcast : (minifloatVal w1 : ℚ) < (minifloatVal w2 : ℚ) := by
    exact_mod_cast minifloatVal_strictMono w1 w2 h
  exact div_lt_div_of_pos_right hcast (by norm_num)

/-- C8: decoding after encoding is the identity on the representable set
(`GetP(SetP(x)) = x` whenever `x = decodeP w` is representable), and the
encoding is monotone on `[0, 1]`: `x ≤ y` implies
`encode(x) ≤ encode(y)`. -/
theorem minifloat_roundtrip_monotone (w : ℕ) (x y : ℚ)
    (hw : w ≤ 65535) (hx : 0 ≤ x) (hxy : x ≤ y) (hy : y ≤ 1) :
    decodeP (encodeP (decodeP w)) = decodeP w ∧
    encodeP (decodeP w) = w ∧
    encodeP x ≤ encodeP y := by
  have hrt : encodeP (decodeP w) = w := by
    unfold encodeP
    apply le_antisymm
    · by_contra hgt
      push_neg at hgt
      have hspec : decodeP (Nat.findGreatest (fun v => decodeP v ≤ decodeP w) 65535)
          ≤ decodeP w :=
        Nat.findGreatest_spec (P := fun v => decodeP v ≤ decodeP w) hw
          (le_refl (decodeP w))
      exact absurd (lt_of_lt_of_le (decodeP_strictMono _ _ hgt) hspec) (lt_irrefl _)
    · exact Nat.le_findGreatest hw (le_refl (decodeP w))
  refine ⟨by rw [hrt], hrt, ?_⟩
  exact Nat.findGreatest_mono (fun v hv => le_trans hv hxy) (le_refl 65535)

/-- Witness for C8 at a concrete code word and concrete priors. -/
theorem minifloat_roundtrip_monotone_witness :
    ((3 : ℕ) ≤ 65535 ∧ (0 : ℚ) ≤ 0 ∧ (0 : ℚ) ≤ 1 ∧ (1 : ℚ) ≤ 1) ∧
    encodeP (decodeP 3) = 3 :=
  ⟨⟨by norm_num, le_refl 0, by norm_num, le_refl 1⟩,
   (minifloat_roundtrip_monotone 3 0 1 (by norm_num) (le_refl 0) (by norm_num)
     (le_refl 1)).2.1⟩

end LC0
